import Mathlib

/-!
Verification of the Availability & Booking Engine of the
`ai_appointment_webhook` Odoo module
(`controllers/ai_appointment_controller.py`).

Times are modelled as minutes (`Int`); every interval `(start, end)` is
half-open `[start, end)`. The caller timezone is fixed to UTC, under which
localisation and conversion back are the identity, so wall-clock minutes
within the requested day coincide with UTC minutes and `datetime` values
reduce to plain minute counts.
-/

namespace AiAppointment

/-- A time interval `(start, end)` in minutes, half-open. -/
abbrev Ival := Int × Int

/-- Working-hour window per `time_window` keyword, in minutes since
midnight (`_get_window_hours`, lines 38-48): morning 9:00-12:00,
afternoon 13:00-17:00, evening 17:00-20:00, anything else 0:00-23:59. -/
def windowHours (timeWindow : String) : Int × Int :=
  if timeWindow = "morning" then (540, 720)
  else if timeWindow = "afternoon" then (780, 1020)
  else if timeWindow = "evening" then (1020, 1200)
  else (0, 1439)

/-- One step of stable insertion: places `x` (the earlier input element)
before every element whose start is not strictly smaller, keeping
equal-start elements in input order. -/
def insertByStart (x : Ival) : List Ival → List Ival
  | [] => [x]
  | y :: ys => if y.1 < x.1 then y :: insertByStart x ys else x :: y :: ys

/-- The busy-interval sort of line 261, `busy_intervals.sort(key=lambda x: x[0])`:
Python `list.sort` is stable and here keys only on the interval start. -/
def sortByStart : List Ival → List Ival
  | [] => []
  | x :: xs => insertByStart x (sortByStart xs)

/-- Insertion step for the lexicographic order (start, then end). -/
def insertByStartEnd (x : Ival) : List Ival → List Ival
  | [] => [x]
  | y :: ys =>
    if y.1 < x.1 ∨ (y.1 = x.1 ∧ y.2 < x.2) then y :: insertByStartEnd x ys
    else x :: y :: ys

/-- Modelled from the spec's words (§4.1): sort by start ascending with
ties broken by end ascending. Kept only to compare against the source's
`sortByStart`. -/
def sortByStartEndSpec : List Ival → List Ival
  | [] => []
  | x :: xs => insertByStartEnd x (sortByStartEndSpec xs)

/-- The merge scan of lines 264-273, carrying the interval currently being
extended: when the next start is `≤` the current end, extend the current
end to the max of the two ends, else emit the current interval and start
a new one. -/
def mergeLoop (cur : Ival) : List Ival → List Ival
  | [] => [cur]
  | i :: rest =>
    if i.1 ≤ cur.2 then mergeLoop (cur.1, max cur.2 i.2) rest
    else cur :: mergeLoop i rest

/-- Full interval merger (lines 261-273): sort by start (stable), then
scan once merging overlapping intervals. Empty input yields empty output. -/
def mergeIntervals (busy : List Ival) : List Ival :=
  match sortByStart busy with
  | [] => []
  | i :: rest => mergeLoop i rest

/-- A minute `t` is covered by some interval of `l`. -/
def covers (l : List Ival) (t : Int) : Prop := ∃ p ∈ l, p.1 ≤ t ∧ t < p.2

/-- The free-interval cursor walk of lines 300-307: for each merged busy
interval in order emit the gap `[cursor, busy.start)` when non-empty and
advance the cursor to `max cursor busy.end`; finally emit the trailing
`[cursor, wEnd)` when non-empty. -/
def freeWalk (cursor wEnd : Int) : List Ival → List Ival
  | [] => if cursor < wEnd then [(cursor, wEnd)] else []
  | (bs, be) :: rest =>
    (if bs > cursor then [(cursor, bs)] else []) ++ freeWalk (max cursor be) wEnd rest

/-- Fuelled form of the slot-generation `while` loop of lines 312-323:
while `s + d ≤ e` emit the slot `(s, s + d)` and advance `s` by `d`. The
fuel only makes the recursion structural; `genSlots` supplies enough of it
whenever `0 < d` (each iteration consumes at least one minute of `e - s`). -/
def genSlotsAux (d e : Int) : Nat → Int → List Ival
  | 0, _ => []
  | Nat.succ fuel, s => if s + d ≤ e then (s, s + d) :: genSlotsAux d e fuel (s + d) else []

/-- Slot generation for one free interval (lines 310-323). The `0 < d`
test is not in the source: there the loop simply never terminates for
`d ≤ 0` on a free interval with `s + d ≤ e` (see the C7 analysis). -/
def genSlots (d s e : Int) : List Ival :=
  if 0 < d then genSlotsAux d e (e - s).toNat s else []

/-- Fixed-duration slot generation over all free intervals, appending in
order as the source's nested loops do (lines 310-323). -/
def slotsFromFree (d : Int) (free : List Ival) : List Ival :=
  free.foldl (fun acc f => acc ++ genSlots d f.1 f.2) []

/-- Template-mode filtering (lines 278-296): a configured slot is kept iff
no merged busy interval satisfies the strict overlap test
`slot.start < busy.end and slot.end > busy.start`. -/
def filterTemplateSlots (cands merged : List Ival) : List Ival :=
  cands.filter fun c => merged.all fun b => ! (decide (c.1 < b.2) && decide (c.2 > b.1))

/-- Fixed-duration availability pipeline of `_compute_free_slots` at a
resolved UTC window: merge busy intervals, walk out the free intervals,
slice them into slots (lines 261-325, auto-generation branch). -/
def computeSlotsInWindow (wStart wEnd : Int) (busy : List Ival) (d : Int) : List Ival :=
  slotsFromFree d (freeWalk wStart wEnd (mergeIntervals busy))

/-- The `_compute_free_slots` auto-generation path with a UTC caller
timezone: the working window comes from the `time_window` keyword
(lines 227-240) and localisation is the identity. The returned list is
the function's final `slots` value: the source returns it whole, with no
truncation (line 325). -/
def computeFreeSlots (timeWindow : String) (busy : List Ival) (d : Int) : List Ival :=
  computeSlotsInWindow (windowHours timeWindow).1 (windowHours timeWindow).2 busy d

/-! Duration validation on the `check_availability` route (lines 404-413):
the only check performed is `duration = int(duration)` inside try/except.
A payload value is modelled by what Python's `int()` does to it: an int is
returned unchanged, a float is truncated, and a string either parses as an
integer literal or raises. -/

/-- A `duration_minutes` payload value as seen by Python's `int()`. -/
inductive PyVal
  | pyInt (n : Int)
  | pyFloat (trunc : Int)
  | pyStr (intParse : Option Int)
deriving Repr, DecidableEq

/-- Python `int(x)` on a payload value: `none` models the exception path
that makes `check_availability` return the error response. -/
def pyIntConv : PyVal → Option Int
  | .pyInt n => some n
  | .pyFloat t => some t
  | .pyStr p => p

/-- The loop variable `slot_start` after `k` iterations of the slot
generation loop body, which adds `delta = d` each time (line 323). -/
def loopState (s d : Int) (k : Nat) : Int := s + k * d

/-- The guard of the slot-generation `while` loop (line 313):
`slot_start + delta <= f_end`. -/
def whileCond (d s e : Int) : Prop := s + d ≤ e

/-! Booking model (`book_appointment`, lines 474-705, and the cross-checked
pieces of the store). The persistent store holds contact (partner) records
and calendar events; the route never creates booking records (the comment
at lines 701-704 says so explicitly), so the model has none. -/

/-- A `res.partner` record as the route creates or finds it (lines 512-526). -/
structure Partner where
  name : String
  phone : Option String
  email : Option String
deriving Repr, DecidableEq

/-- A `calendar.event` record with the fields the route reads and writes. -/
structure Ev where
  user : Int
  start : Int
  stop : Int
deriving Repr, DecidableEq

/-- The persistent store the booking route touches. -/
structure Store where
  partners : List Partner
  events : List Ev
deriving Repr, DecidableEq

/-- A booking request, with datetime fields carried as parse results:
`none` is a missing field, `some none` a present but unparseable value,
`some (some t)` a value parsing to UTC minute `t`. `userId` is the
calendar owner after the email/appointment-type/static fallbacks
(lines 528-555). `templates` is `some slots` when an appointment type was
resolved, with `slots` its configured UTC slots for the request date
(lines 592-628). `createFails` models `Event.create` raising (line 673). -/
structure BookReq where
  callerName : String
  callerPhone : Option String
  callerEmail : Option String
  slotStart : Option (Option Int)
  slotEnd : Option (Option Int)
  userId : Int
  templates : Option (List Ival)
  createFails : Bool

/-- The outcome of a booking request, one constructor per return site. -/
inductive BookResult
  | missingFields
  | invalidDatetime
  | slotNotOffered
  | slotConflict
  | createFailed
  | confirmed
deriving Repr, DecidableEq

/-- Partner lookup of lines 512-518: search by email first, then by phone. -/
def findPartner (partners : List Partner) (email phone : Option String) : Option Partner :=
  let byEmail := match email with
    | some em => partners.find? fun p => p.email == some em
    | none => none
  match byEmail with
  | some p => some p
  | none =>
    match phone with
    | some ph => partners.find? fun p => p.phone == some ph
    | none => none

/-- The conflict check of lines 653-665: count events of the same user
satisfying the overlap test `start < end_req and stop > start_req`. -/
def conflictCount (evs : List Ev) (u s e : Int) : Nat :=
  (evs.filter fun ev => decide (ev.user = u) && decide (ev.start < e) && decide (ev.stop > s)).length

/-- Appending a newly created `calendar.event` (line 673). -/
def createEvent (evs : List Ev) (u s e : Int) : List Ev :=
  evs ++ [⟨u, s, e⟩]

/-- Partner lookup-or-create of lines 512-526: reuse a found partner,
else create one from the caller fields. Only the partner table changes. -/
def ensurePartner (st : Store) (name : String) (phone email : Option String) : Store :=
  match findPartner st.partners email phone with
  | some _ => st
  | none => { st with partners := st.partners ++ [⟨name, phone, email⟩] }

/-- The `book_appointment` route as a store transformer, with the source's
statement order: missing-field check (line 504), partner lookup-or-create
(lines 512-526), ISO datetime conversion (lines 557-565), template-slot
validation when an appointment type is resolved (lines 592-628, exact
equality of both endpoints against the configured slots, i.e. list
membership), conflict check (lines 653-670), event creation
(lines 672-678). The template-validation `try` block raises on none of
the operations modelled here, so its `except: pass` arm is dead in the
model. -/
def bookAppointment (req : BookReq) (st : Store) : BookResult × Store :=
  match req.slotStart, req.slotEnd with
  | none, _ => (.missingFields, st)
  | some _, none => (.missingFields, st)
  | some ps, some pe =>
    let st1 := ensurePartner st req.callerName req.callerPhone req.callerEmail
    match ps, pe with
    | none, _ => (.invalidDatetime, st1)
    | some _, none => (.invalidDatetime, st1)
    | some s, some e =>
      let notOffered :=
        match req.templates with
        | some slots => ! (decide ((s, e) ∈ slots))
        | none => false
      if notOffered then (.slotNotOffered, st1)
      else if conflictCount st1.events req.userId s e > 0 then (.slotConflict, st1)
      else if req.createFails then (.createFailed, st1)
      else (.confirmed, { st1 with events := createEvent st1.events req.userId s e })

/-- Two concurrent `book_appointment` calls for the same user and slot,
interleaved so both conflict checks (line 665) run before either
`Event.create` (line 673) — the schedule nothing in the source forbids,
since check and create are separate statements with no lock or
transactional guard between them. Returns each call's success flag and
the final event list. -/
def racyRun (u s e : Int) : Bool × Bool × List Ev :=
  let evs0 : List Ev := []
  let ok1 := conflictCount evs0 u s e == 0
  let ok2 := conflictCount evs0 u s e == 0
  let evs1 := if ok1 then createEvent evs0 u s e else evs0
  let evs2 := if ok2 then createEvent evs1 u s e else evs1
  (ok1, ok2, evs2)

/-! Staff-user resolution (`_resolve_user_from_appointment`, lines 69-98). -/

/-- Stable insertion step for ascending `Nat` ids. -/
def insertId (x : Nat) : List Nat → List Nat
  | [] => [x]
  | y :: ys => if y < x then y :: insertId x ys else x :: y :: ys

/-- The recordset sort `users.sorted('id')` of line 95: ascending by id. -/
def sortIds : List Nat → List Nat
  | [] => []
  | x :: xs => insertId x (sortIds xs)

/-- Lines 86-98: prefer `staff_user_ids` when non-empty, else `user_ids`;
sort by id and take the first record (`users[:1]`), `none` when both
lists are empty. -/
def resolveUser (staff legacy : List Nat) : Option Nat :=
  let users := if staff ≠ [] then staff else legacy
  (sortIds users).head?

/-! Coverage lemmas. -/

theorem covers_nil (t : Int) : ¬ covers [] t := by
  simp [covers]

theorem covers_cons (p : Ival) (l : List Ival) (t : Int) :
    covers (p :: l) t ↔ (p.1 ≤ t ∧ t < p.2) ∨ covers l t := by
  simp [covers]

theorem covers_append (l₁ l₂ : List Ival) (t : Int) :
    covers (l₁ ++ l₂) t ↔ covers l₁ t ∨ covers l₂ t := by
  simp [covers, List.mem_append, or_and_right, exists_or]

theorem covers_of_perm {l l' : List Ival} (h : l.Perm l') (t : Int) :
    covers l t ↔ covers l' t := by
  unfold covers
  constructor
  · rintro ⟨p, hp, hc⟩
    exact ⟨p, h.mem_iff.mp hp, hc⟩
  · rintro ⟨p, hp, hc⟩
    exact ⟨p, h.mem_iff.mpr hp, hc⟩

/-! The stable sort of line 261. -/

theorem insertByStart_perm (x : Ival) (l : List Ival) :
    (insertByStart x l).Perm (x :: l) := by
  induction l with
  | nil => simp [insertByStart]
  | cons y ys ih =>
    simp only [insertByStart]
    split
    · exact (ih.cons y).trans (List.Perm.swap x y ys)
    · exact List.Perm.refl _

theorem sortByStart_perm (l : List Ival) : (sortByStart l).Perm l := by
  induction l with
  | nil => simp [sortByStart]
  | cons x xs ih =>
    simp only [sortByStart]
    exact (insertByStart_perm x (sortByStart xs)).trans (ih.cons x)

theorem insertByStart_sorted (x : Ival) (l : List Ival)
    (h : l.Pairwise fun a b => a.1 ≤ b.1) :
    (insertByStart x l).Pairwise fun a b => a.1 ≤ b.1 := by
  induction l with
  | nil => simp [insertByStart]
  | cons y ys ih =>
    rw [List.pairwise_cons] at h
    obtain ⟨hy, hys⟩ := h
    simp only [insertByStart]
    split
    case isTrue hlt =>
      rw [List.pairwise_cons]
      refine ⟨?_, ih hys⟩
      intro z hz
      have hz2 : z ∈ x :: ys := (insertByStart_perm x ys).mem_iff.mp hz
      rcases List.mem_cons.mp hz2 with rfl | hz3
      · exact le_of_lt hlt
      · exact hy z hz3
    case isFalse hge =>
      rw [List.pairwise_cons]
      refine ⟨?_, List.pairwise_cons.mpr ⟨hy, hys⟩⟩
      intro z hz
      rcases List.mem_cons.mp hz with rfl | hz3
      · omega
      · have := hy z hz3
        omega

theorem sortByStart_sorted (l : List Ival) :
    (sortByStart l).Pairwise fun a b => a.1 ≤ b.1 := by
  induction l with
  | nil => simp [sortByStart]
  | cons x xs ih =>
    simp only [sortByStart]
    exact insertByStart_sorted x _ ih

/-! The merge scan of lines 264-273. -/

theorem mergeLoop_first (cur : Ival) (l : List Ival) :
    ∃ e2 tail, mergeLoop cur l = (cur.1, e2) :: tail ∧ cur.2 ≤ e2 := by
  induction l generalizing cur with
  | nil => exact ⟨cur.2, [], by simp [mergeLoop], le_refl _⟩
  | cons i rest ih =>
    simp only [mergeLoop]
    split
    case isTrue h =>
      obtain ⟨e2, tail, heq, hle⟩ := ih (cur.1, max cur.2 i.2)
      refine ⟨e2, tail, heq, ?_⟩
      simp only at hle
      omega
    case isFalse h =>
      exact ⟨cur.2, mergeLoop i rest, by simp, le_refl _⟩

theorem mergeLoop_chain (cur : Ival) (l : List Ival) :
    (mergeLoop cur l).Chain' fun a b => a.2 < b.1 := by
  induction l generalizing cur with
  | nil => simp [mergeLoop]
  | cons i rest ih =>
    simp only [mergeLoop]
    split
    case isTrue h => exact ih _
    case isFalse h =>
      obtain ⟨e2, tail, heq, _⟩ := mergeLoop_first i rest
      rw [heq, List.chain'_cons]
      constructor
      · simp only
        omega
      · exact heq ▸ ih i

theorem mergeLoop_valid : ∀ (l : List Ival) (cur : Ival), cur.1 < cur.2 →
    (∀ p ∈ l, p.1 < p.2) → ∀ p ∈ mergeLoop cur l, p.1 < p.2 := by
  intro l
  induction l with
  | nil =>
    intro cur hc _ p hp
    simp [mergeLoop] at hp
    exact hp ▸ hc
  | cons i rest ih =>
    intro cur hc hl p hp
    simp only [mergeLoop] at hp
    split at hp
    case isTrue h =>
      refine ih (cur.1, max cur.2 i.2) ?_ (fun q hq => hl q (List.mem_cons_of_mem _ hq)) p hp
      simp only
      omega
    case isFalse h =>
      rcases List.mem_cons.mp hp with rfl | hp2
      · exact hc
      · exact ih i (hl i (List.mem_cons_self _ _))
          (fun q hq => hl q (List.mem_cons_of_mem _ hq)) p hp2

theorem mergeLoop_cover : ∀ (l : List Ival) (cur : Ival),
    ((cur :: l).Pairwise fun a b => a.1 ≤ b.1) →
    ∀ t, covers (mergeLoop cur l) t ↔ covers (cur :: l) t := by
  intro l
  induction l with
  | nil =>
    intro cur _ t
    simp [mergeLoop]
  | cons i rest ih =>
    intro cur hp t
    rw [List.pairwise_cons] at hp
    obtain ⟨hcur, hrest⟩ := hp
    simp only [mergeLoop]
    split
    case isTrue h =>
      have hpair : (((cur.1, max cur.2 i.2) : Ival) :: rest).Pairwise fun a b => a.1 ≤ b.1 := by
        rw [List.pairwise_cons]
        refine ⟨?_, (List.pairwise_cons.mp hrest).2⟩
        intro z hz
        exact hcur z (List.mem_cons_of_mem _ hz)
      rw [ih _ hpair t]
      have hi1 : cur.1 ≤ i.1 := hcur i (List.mem_cons_self _ _)
      rw [covers_cons, covers_cons, covers_cons]
      have harith : ((cur.1, max cur.2 i.2) : Ival).1 ≤ t ∧ t < ((cur.1, max cur.2 i.2) : Ival).2 ↔
          ((cur.1 ≤ t ∧ t < cur.2) ∨ (i.1 ≤ t ∧ t < i.2)) := by
        simp only
        omega
      rw [harith, or_assoc]
    case isFalse h =>
      have hiff := ih i hrest t
      rw [covers_cons, covers_cons, hiff]

/-- C3 counterexample: the source sorts busy intervals by start only
(`sort(key=lambda x: x[0])`, stable), so on two intervals with equal
starts the claimed end-ascending tie-break does not happen: the input
`[(1,5), (1,3)]` stays in that order, which the spec-worded sort would
reverse, and the result violates the lexicographic (start, end) order. -/
theorem C3_sort_tiebreak_counterexample :
    sortByStart [((1 : Int), (5 : Int)), (1, 3)] = [(1, 5), (1, 3)]
    ∧ sortByStartEndSpec [((1 : Int), (5 : Int)), (1, 3)] = [(1, 3), (1, 5)]
    ∧ sortByStart [((1 : Int), (5 : Int)), (1, 3)] ≠
        sortByStartEndSpec [((1 : Int), (5 : Int)), (1, 3)] := by
  refine ⟨by decide, by decide, by decide⟩

/-- C3 (amended): the merger sorts busy intervals by start ascending
(stable, ties kept in input order) and produces a sequence that is
sorted, pairwise non-overlapping and non-adjacent (consecutive merged
intervals satisfy `prev.end < next.start`), made of valid intervals, and
covering exactly the union of the input; empty input yields empty
output, and the spec's scenario `(09:00,09:30), (09:15,10:00)` merges to
`(09:00,10:00)`. -/
theorem C3_merge_properties (busy : List Ival) (hv : ∀ p ∈ busy, p.1 < p.2) :
    (mergeIntervals busy).Chain' (fun a b => a.2 < b.1)
    ∧ (∀ p ∈ mergeIntervals busy, p.1 < p.2)
    ∧ (∀ t, covers (mergeIntervals busy) t ↔ covers busy t)
    ∧ mergeIntervals [] = []
    ∧ mergeIntervals [(540, 570), (555, 600)] = [(540, 600)] := by
  have hperm := sortByStart_perm busy
  have hsorted := sortByStart_sorted busy
  rcases hs : sortByStart busy with _ | ⟨i, rest⟩
  · have hb : busy = [] := by
      rw [hs] at hperm
      exact hperm.symm.eq_nil
    subst hb
    refine ⟨?_, ?_, ?_, rfl, by decide⟩
    · simp [mergeIntervals, sortByStart]
    · simp [mergeIntervals, sortByStart]
    · intro t
      simp [mergeIntervals, sortByStart]
  · have hml : mergeIntervals busy = mergeLoop i rest := by
      unfold mergeIntervals
      rw [hs]
    rw [hs] at hperm hsorted
    refine ⟨?_, ?_, ?_, rfl, by decide⟩
    · rw [hml]
      exact mergeLoop_chain i rest
    · rw [hml]
      refine mergeLoop_valid rest i ?_ ?_
      · exact hv i (hperm.mem_iff.mp (List.mem_cons_self _ _))
      · intro q hq
        exact hv q (hperm.mem_iff.mp (List.mem_cons_of_mem _ hq))
    · intro t
      rw [hml, mergeLoop_cover rest i hsorted t]
      exact covers_of_perm hperm t

/-- C3 witness: the amended merge theorem applied to the spec's scenario
input, whose intervals are all valid. -/
theorem C3_merge_properties_witness :
    (∀ p ∈ [((540 : Int), (570 : Int)), (555, 600)], p.1 < p.2)
    ∧ ((mergeIntervals [(540, 570), (555, 600)]).Chain' (fun a b => a.2 < b.1)
      ∧ (∀ p ∈ mergeIntervals [(540, 570), (555, 600)], p.1 < p.2)
      ∧ (∀ t, covers (mergeIntervals [(540, 570), (555, 600)]) t ↔
          covers [(540, 570), (555, 600)] t)
      ∧ mergeIntervals [] = []
      ∧ mergeIntervals [(540, 570), (555, 600)] = [(540, 600)]) :=
  ⟨by decide, C3_merge_properties [(540, 570), (555, 600)] (by decide)⟩

/-! The free-interval cursor walk of lines 300-307. -/

theorem chain_sep_forall : ∀ (l : List Ival) (x : Ival),
    ((x :: l).Chain' fun a b => a.2 < b.1) → (∀ p ∈ l, p.1 < p.2) →
    ∀ p ∈ l, x.2 < p.1 := by
  intro l
  induction l with
  | nil =>
    intro x _ _ p hp
    simp at hp
  | cons y ys ih =>
    intro x hc hv p hp
    rw [List.chain'_cons] at hc
    obtain ⟨hxy, hc2⟩ := hc
    rcases List.mem_cons.mp hp with rfl | hp2
    · exact hxy
    · have hy : y.1 < y.2 := hv y (List.mem_cons_self _ _)
      have := ih y hc2 (fun q hq => hv q (List.mem_cons_of_mem _ hq)) p hp2
      omega

theorem freeWalk_start_ge : ∀ (busy : List Ival) (c wEnd : Int),
    ∀ f ∈ freeWalk c wEnd busy, c ≤ f.1 := by
  intro busy
  induction busy with
  | nil =>
    intro c wEnd f hf
    simp only [freeWalk] at hf
    split at hf
    · simp at hf
      subst hf
      exact le_refl _
    · simp at hf
  | cons b rest ih =>
    intro c wEnd f hf
    obtain ⟨bs, be⟩ := b
    simp only [freeWalk] at hf
    rw [List.mem_append] at hf
    rcases hf with hf | hf
    · split at hf
      · simp at hf
        subst hf
        exact le_refl _
      · simp at hf
    · have := ih (max c be) wEnd f hf
      omega

theorem freeWalk_bounds : ∀ (busy : List Ival) (c wEnd : Int),
    (∀ b ∈ busy, b.1 < wEnd) →
    ∀ f ∈ freeWalk c wEnd busy, c ≤ f.1 ∧ f.1 < f.2 ∧ f.2 ≤ wEnd := by
  intro busy
  induction busy with
  | nil =>
    intro c wEnd _ f hf
    simp only [freeWalk] at hf
    split at hf
    case isTrue h =>
      simp at hf
      subst hf
      exact ⟨le_refl _, h, le_refl _⟩
    case isFalse h =>
      simp at hf
  | cons b rest ih =>
    intro c wEnd hin f hf
    obtain ⟨bs, be⟩ := b
    simp only [freeWalk] at hf
    rw [List.mem_append] at hf
    rcases hf with hf | hf
    · split at hf
      case isTrue h =>
        simp at hf
        subst hf
        have : bs < wEnd := hin (bs, be) (List.mem_cons_self _ _)
        exact ⟨le_refl _, h, le_of_lt this⟩
      case isFalse h =>
        simp at hf
    · have := ih (max c be) wEnd (fun q hq => hin q (List.mem_cons_of_mem _ hq)) f hf
      exact ⟨by omega, this.2.1, this.2.2⟩

theorem freeWalk_chain : ∀ (busy : List Ival) (c wEnd : Int),
    (∀ b ∈ busy, b.1 < b.2) →
    (freeWalk c wEnd busy).Chain' fun a b => a.2 < b.1 := by
  intro busy
  induction busy with
  | nil =>
    intro c wEnd _
    simp only [freeWalk]
    split <;> simp
  | cons b rest ih =>
    intro c wEnd hv
    obtain ⟨bs, be⟩ := b
    have hbv : bs < be := hv (bs, be) (List.mem_cons_self _ _)
    have hrest := ih (max c be) wEnd (fun q hq => hv q (List.mem_cons_of_mem _ hq))
    simp only [freeWalk]
    split
    case isTrue h =>
      refine List.chain'_append.mpr ⟨List.chain'_singleton _, hrest, ?_⟩
      intro x hx y hy
      simp at hx
      subst hx
      have hy2 : y ∈ freeWalk (max c be) wEnd rest := List.mem_of_mem_head? hy
      have := freeWalk_start_ge rest (max c be) wEnd y hy2
      simp only
      omega
    case isFalse h =>
      simpa using hrest

theorem freeWalk_cover : ∀ (busy : List Ival) (c wEnd : Int),
    (busy.Chain' fun a b => a.2 < b.1) →
    (∀ b ∈ busy, b.1 < b.2) →
    ∀ t, c ≤ t → t < wEnd →
    (covers (freeWalk c wEnd busy) t ↔ ¬ covers busy t) := by
  intro busy
  induction busy with
  | nil =>
    intro c wEnd _ _ t hct htw
    simp only [freeWalk]
    rw [if_pos (lt_of_le_of_lt hct htw)]
    simp [covers]
    omega
  | cons b rest ih =>
    intro c wEnd hch hv t hct htw
    obtain ⟨bs, be⟩ := b
    have hbv : bs < be := hv (bs, be) (List.mem_cons_self _ _)
    have hsep : ∀ p ∈ rest, be < p.1 := by
      have := chain_sep_forall rest (bs, be) hch (fun q hq => hv q (List.mem_cons_of_mem _ hq))
      simpa using this
    have hch2 : rest.Chain' fun a b => a.2 < b.1 := hch.tail
    simp only [freeWalk]
    rw [covers_append, covers_cons]
    by_cases hbe : t < be
    · have hnr : ¬ covers rest t := by
        rintro ⟨p, hp, hc1, _⟩
        have := hsep p hp
        omega
      have hnf : ¬ covers (freeWalk (max c be) wEnd rest) t := by
        rintro ⟨p, hp, hc1, _⟩
        have := freeWalk_start_ge rest (max c be) wEnd p hp
        omega
      have h0 : ¬ covers [] t := covers_nil t
      by_cases hbs : bs > c
      · rw [if_pos hbs, covers_cons]
        constructor
        · rintro ((⟨h1, h2⟩ | h1) | h1)
          · rintro (⟨h3, _⟩ | h3)
            · omega
            · exact hnr h3
          · exact absurd h1 h0
          · exact absurd h1 hnf
        · intro h1
          refine Or.inl (Or.inl ⟨hct, ?_⟩)
          by_contra h2
          exact h1 (Or.inl ⟨by omega, hbe⟩)
      · rw [if_neg hbs]
        constructor
        · rintro (h1 | h1)
          · exact absurd h1 h0
          · exact absurd h1 hnf
        · intro h1
          exact (h1 (Or.inl ⟨by omega, hbe⟩)).elim
    · have hmax : max c be ≤ t := by omega
      have hiff := ih (max c be) wEnd hch2 (fun q hq => hv q (List.mem_cons_of_mem _ hq)) t hmax htw
      have hgap : ¬ covers (if bs > c then [((c : Int), bs)] else []) t := by
        split
        · rw [covers_cons]
          simp [covers]
          omega
        · simp [covers]
      simp [hgap, hiff, hbe]

/-- C4 counterexample: with window `[0,10)` and the single merged busy
interval `(12,15)` — sorted, non-overlapping, valid, but lying wholly
beyond the window end — the cursor walk emits the free interval
`(0,12)`, whose end exceeds the window end: the computed free intervals
are not clipped to the window when a busy interval starts at or after
the window end. -/
theorem C4_unclipped_free_counterexample :
    freeWalk 0 10 [((12 : Int), (15 : Int))] = [(0, 12)]
    ∧ ¬ (∀ f ∈ freeWalk 0 10 [((12 : Int), (15 : Int))], f.2 ≤ 10) :=
  ⟨by decide, fun h => absurd (h (0, 12) (by decide)) (by decide)⟩

/-- C4 (amended): for every working window and every sorted,
non-overlapping merged busy sequence of valid intervals, each of which
starts before the window end (as the store query's `start < day_end`
filter guarantees on the real data path), the free intervals computed by
the cursor walk are ordered, pairwise disjoint, valid, clipped to the
window, and partition the window exactly against the busy set: a minute
of the window is covered by a free interval iff it is covered by no busy
interval (no gaps, no overlaps). -/
theorem C4_free_busy_partition (wStart wEnd : Int) (busy : List Ival)
    (hchain : busy.Chain' fun a b => a.2 < b.1)
    (hvalid : ∀ b ∈ busy, b.1 < b.2)
    (hin : ∀ b ∈ busy, b.1 < wEnd) :
    (freeWalk wStart wEnd busy).Chain' (fun a b => a.2 < b.1)
    ∧ (∀ f ∈ freeWalk wStart wEnd busy, wStart ≤ f.1 ∧ f.1 < f.2 ∧ f.2 ≤ wEnd)
    ∧ (∀ t, wStart ≤ t → t < wEnd →
        (covers (freeWalk wStart wEnd busy) t ↔ ¬ covers busy t)) :=
  ⟨freeWalk_chain busy wStart wEnd hvalid,
   freeWalk_bounds busy wStart wEnd hin,
   fun t h1 h2 => freeWalk_cover busy wStart wEnd hchain hvalid t h1 h2⟩

/-- C4 witness: the partition theorem applied to window `[0,10)` with
the single busy interval `(2,4)`. -/
theorem C4_free_busy_partition_witness :
    (List.Chain' (fun a b : Ival => a.2 < b.1) [((2 : Int), (4 : Int))]
      ∧ (∀ b ∈ [((2 : Int), (4 : Int))], b.1 < b.2)
      ∧ (∀ b ∈ [((2 : Int), (4 : Int))], b.1 < 10))
    ∧ ((freeWalk 0 10 [((2 : Int), (4 : Int))]).Chain' (fun a b => a.2 < b.1)
      ∧ (∀ f ∈ freeWalk 0 10 [((2 : Int), (4 : Int))], (0 : Int) ≤ f.1 ∧ f.1 < f.2 ∧ f.2 ≤ 10)
      ∧ (∀ t, (0 : Int) ≤ t → t < 10 →
          (covers (freeWalk 0 10 [((2 : Int), (4 : Int))]) t ↔
            ¬ covers [((2 : Int), (4 : Int))] t))) :=
  ⟨⟨by simp, by decide, by decide⟩,
   C4_free_busy_partition 0 10 [(2, 4)] (by simp) (by decide) (by decide)⟩

/-! The fixed-duration slot generation loop of lines 310-323. -/

theorem genSlotsAux_mem (d e : Int) (hd : 0 ≤ d) : ∀ (fuel : Nat) (s : Int),
    ∀ p ∈ genSlotsAux d e fuel s, p.2 - p.1 = d ∧ p.2 ≤ e ∧ s ≤ p.1 := by
  intro fuel
  induction fuel with
  | zero =>
    intro s p hp
    simp [genSlotsAux] at hp
  | succ n ih =>
    intro s p hp
    simp only [genSlotsAux] at hp
    split at hp
    case isTrue h =>
      rcases List.mem_cons.mp hp with rfl | hp2
      · refine ⟨?_, ?_, ?_⟩
        · show s + d - s = d
          omega
        · exact h
        · exact le_refl s
      · have := ih (s + d) p hp2
        exact ⟨this.1, this.2.1, by omega⟩
    case isFalse h =>
      simp at hp

theorem genSlotsAux_chain (d e : Int) (hd : 0 ≤ d) : ∀ (fuel : Nat) (s : Int),
    (genSlotsAux d e fuel s).Chain' fun a b => a.2 ≤ b.1 := by
  intro fuel
  induction fuel with
  | zero =>
    intro s
    simp [genSlotsAux]
  | succ n ih =>
    intro s
    simp only [genSlotsAux]
    split
    case isTrue h =>
      rcases hl : genSlotsAux d e n (s + d) with _ | ⟨q, tail⟩
      · simp
      · rw [List.chain'_cons]
        constructor
        · have hq : q ∈ genSlotsAux d e n (s + d) := by
            rw [hl]
            exact List.mem_cons_self _ _
          have := genSlotsAux_mem d e hd n (s + d) q hq
          show s + d ≤ q.1
          omega
        · exact hl ▸ ih (s + d)
    case isFalse h =>
      simp

/-- Membership in the template filter, unfolded to the strict overlap
test of line 285. -/
theorem filterTemplate_mem (cands merged : List Ival) (p : Ival) :
    p ∈ filterTemplateSlots cands merged ↔
      (p ∈ cands ∧ ∀ b ∈ merged, ¬ (p.1 < b.2 ∧ p.2 > b.1)) := by
  rw [filterTemplateSlots, List.mem_filter]
  have hall : (merged.all fun b => ! (decide (p.1 < b.2) && decide (p.2 > b.1))) = true ↔
      ∀ b ∈ merged, ¬ (p.1 < b.2 ∧ p.2 > b.1) := by
    rw [List.all_eq_true]
    constructor
    · intro h b hb
      have := h b hb
      simp at this
      rintro ⟨h1, h2⟩
      omega
    · intro h b hb
      have := h b hb
      simp
      omega
  rw [hall]

/-- C5 (confirmed): with a positive requested duration, every slot the
generator emits from a free interval `[s, e)` has length exactly the
duration, ends inside the interval (no partial final slot), and starts
at or after the interval start; consecutive emitted slots do not
overlap; and the spec's scenario — busy `(09:00,10:00)` in a 09:00-17:00
UTC window with duration 60 — yields exactly the seven slots 10:00-11:00
through 16:00-17:00. -/
theorem C5_fixed_duration_slots (d s e : Int) (hd : 0 < d) :
    (∀ p ∈ genSlots d s e, p.2 - p.1 = d ∧ p.2 ≤ e ∧ s ≤ p.1)
    ∧ (genSlots d s e).Chain' (fun a b => a.2 ≤ b.1)
    ∧ computeSlotsInWindow 540 1020 [(540, 600)] 60 =
        [(600, 660), (660, 720), (720, 780), (780, 840),
         (840, 900), (900, 960), (960, 1020)] := by
  refine ⟨?_, ?_, by decide⟩
  · intro p hp
    rw [genSlots, if_pos hd] at hp
    exact genSlotsAux_mem d e (le_of_lt hd) _ s p hp
  · rw [genSlots, if_pos hd]
    exact genSlotsAux_chain d e (le_of_lt hd) _ s

/-- C5 witness: the slot-generation theorem at duration 60 on the free
interval `[600, 780)`. -/
theorem C5_fixed_duration_slots_witness :
    (0 : Int) < 60
    ∧ ((∀ p ∈ genSlots 60 600 780, p.2 - p.1 = 60 ∧ p.2 ≤ 780 ∧ 600 ≤ p.1)
      ∧ (genSlots 60 600 780).Chain' (fun a b => a.2 ≤ b.1)
      ∧ computeSlotsInWindow 540 1020 [(540, 600)] 60 =
          [(600, 660), (660, 720), (720, 780), (780, 840),
           (840, 900), (900, 960), (960, 1020)]) :=
  ⟨by decide, C5_fixed_duration_slots 60 600 780 (by decide)⟩

/-- C6 (confirmed): a template-derived candidate slot appears in the
availability result iff it is one of the configured candidates and
overlaps no merged busy interval under the strict test
`slot.start < busy.end ∧ slot.end > busy.start`; and every slot in the
result is literally one of the candidates — templates are never sliced
or merged. -/
theorem C6_template_filter_iff (cands merged : List Ival) (s e : Int) :
    ((s, e) ∈ filterTemplateSlots cands merged ↔
      ((s, e) ∈ cands ∧ ∀ b ∈ merged, ¬ (s < b.2 ∧ e > b.1)))
    ∧ ∀ p ∈ filterTemplateSlots cands merged, p ∈ cands := by
  constructor
  · exact filterTemplate_mem cands merged (s, e)
  · intro p hp
    exact ((filterTemplate_mem cands merged p).mp hp).1

/-- C7 (code bug): `check_availability` validates `duration_minutes`
only through Python `int()` (lines 407-413), so 0 and negative integers
pass validation unchanged and a float such as 30.7 is silently truncated
rather than rejected; only non-numeric values error. With duration 0 the
slot loop's guard then holds at every iterate (the loop variable never
advances), so the request never returns at all on any non-empty free
interval — the claimed `InvalidDuration` error is never produced. -/
theorem C7_duration_validation_gap :
    pyIntConv (PyVal.pyInt 0) = some 0
    ∧ pyIntConv (PyVal.pyInt (-15)) = some (-15)
    ∧ pyIntConv (PyVal.pyFloat 30) = some 30
    ∧ pyIntConv (PyVal.pyStr none) = none
    ∧ ∀ k : Nat, whileCond 0 (loopState 600 0 k) 1020 := by
  refine ⟨rfl, rfl, rfl, rfl, ?_⟩
  intro k
  show 600 + (k : Int) * 0 + 0 ≤ 1020
  omega

/-- C2 (code bug): `_compute_free_slots` returns its whole slot list with
no truncation, contradicting its own docstring "Return up to 10 slots":
an all-day request (`time_window` "any") with an empty calendar at 30
minutes yields 47 slots. -/
theorem C2_uncapped_slots :
    (computeFreeSlots "any" [] 30).length = 47
    ∧ ¬ (computeFreeSlots "any" [] 30).length ≤ 10 :=
  ⟨by decide, by decide⟩

/-- C1 (code bug): the conflict check (line 665) and the event creation
(line 673) are separate unsynchronised steps, so in the interleaving
where both concurrent calls run the check before either creates, both
checks see zero conflicts and both calls succeed, committing two
overlapping events for the same user — events that the code's own
conflict test recognises as conflicting. -/
theorem C1_race_both_succeed :
    racyRun 2 600 660 = (true, true, [⟨2, 600, 660⟩, ⟨2, 600, 660⟩])
    ∧ conflictCount [⟨2, 600, 660⟩] 2 600 660 = 1 :=
  ⟨by decide, by decide⟩

/-! The booking route (`book_appointment`). -/

theorem ensurePartner_events (st : Store) (n : String) (ph em : Option String) :
    (ensurePartner st n ph em).events = st.events := by
  rw [ensurePartner]
  split <;> rfl

/-- Every non-success return site of `book_appointment` hands back the
store as it stood after the partner lookup-or-create, whose event table
is untouched: only the final success branch appends an event. -/
theorem bookAppointment_cases (req : BookReq) (st : Store) :
    (bookAppointment req st).1 = BookResult.confirmed ∨
    ((bookAppointment req st).2).events = st.events := by
  obtain ⟨nm, ph, em, ss, se, uid, tmpl, cf⟩ := req
  rcases ss with _ | ps
  · right
    rfl
  · rcases se with _ | pe
    · right
      rfl
    · rcases ps with _ | s
      · right
        exact ensurePartner_events st nm ph em
      · rcases pe with _ | e
        · right
          exact ensurePartner_events st nm ph em
        · simp only [bookAppointment]
          split
          · right
            exact ensurePartner_events st nm ph em
          · split
            · right
              exact ensurePartner_events st nm ph em
            · split
              · right
                exact ensurePartner_events st nm ph em
              · left
                rfl

/-- C8 counterexample: a booking whose `slot_start` is present but
unparseable, from a caller whose email matches no stored partner,
returns the datetime error — yet the partner record created before the
validation (lines 512-526 run before lines 557-565) remains in the
store: a newly created artifact survives the failure. -/
theorem C8_partner_persists_counterexample :
    bookAppointment
        ⟨"John Smith", none, some "john@example.com", some none, some (some 660), 2, none, false⟩
        ⟨[], []⟩
      = (BookResult.invalidDatetime, ⟨[⟨"John Smith", none, some "john@example.com"⟩], []⟩)
    ∧ ([⟨"John Smith", none, some "john@example.com"⟩] : List Partner) ≠
        (⟨[], []⟩ : Store).partners :=
  ⟨by decide, by decide⟩

/-- C8 (amended): whenever a booking request fails for any reason
(missing fields, unparseable datetimes, slot not offered, conflict, or
store failure), `book_appointment` returns the specific error and
creates no calendar event and no booking record; however a contact
(partner) record created by the lookup-or-create step before validation
may remain. -/
theorem C8_no_event_on_failure (req : BookReq) (st : Store)
    (h : (bookAppointment req st).1 ≠ BookResult.confirmed) :
    ((bookAppointment req st).2).events = st.events :=
  (bookAppointment_cases req st).resolve_left h

/-- C8 witness: a request missing `slot_end` fails and leaves the event
table unchanged. -/
theorem C8_no_event_on_failure_witness :
    (bookAppointment ⟨"A", none, none, some (some 600), none, 2, none, false⟩ ⟨[], []⟩).1 ≠
        BookResult.confirmed
    ∧ ((bookAppointment ⟨"A", none, none, some (some 600), none, 2, none, false⟩ ⟨[], []⟩).2).events =
        (⟨[], []⟩ : Store).events :=
  ⟨by decide,
   C8_no_event_on_failure ⟨"A", none, none, some (some 600), none, 2, none, false⟩ ⟨[], []⟩
     (by decide)⟩

/-- C9 (confirmed): when an appointment type with configured template
slots is resolved for the booking, the request succeeds only if the
requested slot matches one of the template-derived candidates exactly
(equal start and equal end); any other requested slot is rejected with
the slot-not-offered error before any event is created. -/
theorem C9_template_exact_match (req : BookReq) (st : Store) (slots : List Ival) (s e : Int)
    (htmpl : req.templates = some slots)
    (hs : req.slotStart = some (some s))
    (he : req.slotEnd = some (some e)) :
    ((s, e) ∉ slots →
      (bookAppointment req st).1 = BookResult.slotNotOffered
      ∧ ((bookAppointment req st).2).events = st.events)
    ∧ ((bookAppointment req st).1 = BookResult.confirmed → (s, e) ∈ slots) := by
  obtain ⟨nm, ph, em, ss, se, uid, tmpl, cf⟩ := req
  dsimp only at htmpl hs he
  subst htmpl hs he
  constructor
  · intro hnot
    constructor
    · simp [bookAppointment, hnot]
    · simp [bookAppointment, hnot, ensurePartner_events]
  · intro hconf
    by_contra hnot
    simp [bookAppointment, hnot] at hconf

/-- C9 witness: requesting `(600, 720)` against the single configured
slot `(600, 660)` is rejected as not offered. -/
theorem C9_template_exact_match_witness :
    ((⟨"Jane", none, none, some (some 600), some (some 720), 2,
        some [((600 : Int), (660 : Int))], false⟩ : BookReq).templates =
          some [((600 : Int), (660 : Int))]
      ∧ (⟨"Jane", none, none, some (some 600), some (some 720), 2,
          some [((600 : Int), (660 : Int))], false⟩ : BookReq).slotStart = some (some 600)
      ∧ (⟨"Jane", none, none, some (some 600), some (some 720), 2,
          some [((600 : Int), (660 : Int))], false⟩ : BookReq).slotEnd = some (some 720))
    ∧ ((((600 : Int), (720 : Int)) ∉ [((600 : Int), (660 : Int))] →
        (bookAppointment
            ⟨"Jane", none, none, some (some 600), some (some 720), 2,
              some [((600 : Int), (660 : Int))], false⟩ ⟨[], []⟩).1 = BookResult.slotNotOffered
        ∧ ((bookAppointment
            ⟨"Jane", none, none, some (some 600), some (some 720), 2,
              some [((600 : Int), (660 : Int))], false⟩ ⟨[], []⟩).2).events =
            (⟨[], []⟩ : Store).events)
      ∧ ((bookAppointment
            ⟨"Jane", none, none, some (some 600), some (some 720), 2,
              some [((600 : Int), (660 : Int))], false⟩ ⟨[], []⟩).1 = BookResult.confirmed →
          ((600 : Int), (720 : Int)) ∈ [((600 : Int), (660 : Int))])) :=
  ⟨⟨rfl, rfl, rfl⟩,
   C9_template_exact_match _ ⟨[], []⟩ [((600 : Int), (660 : Int))] 600 720 rfl rfl rfl⟩

/-! Staff-user resolution. -/

theorem insertId_perm (x : Nat) (l : List Nat) : (insertId x l).Perm (x :: l) := by
  induction l with
  | nil => simp [insertId]
  | cons y ys ih =>
    simp only [insertId]
    split
    · exact (ih.cons y).trans (List.Perm.swap x y ys)
    · exact List.Perm.refl _

theorem sortIds_perm (l : List Nat) : (sortIds l).Perm l := by
  induction l with
  | nil => simp [sortIds]
  | cons x xs ih =>
    simp only [sortIds]
    exact (insertId_perm x (sortIds xs)).trans (ih.cons x)

theorem insertId_sorted (x : Nat) (l : List Nat) (h : l.Pairwise (· ≤ ·)) :
    (insertId x l).Pairwise (· ≤ ·) := by
  induction l with
  | nil => simp [insertId]
  | cons y ys ih =>
    rw [List.pairwise_cons] at h
    obtain ⟨hy, hys⟩ := h
    simp only [insertId]
    split
    case isTrue hlt =>
      rw [List.pairwise_cons]
      refine ⟨?_, ih hys⟩
      intro z hz
      have hz2 : z ∈ x :: ys := (insertId_perm x ys).mem_iff.mp hz
      rcases List.mem_cons.mp hz2 with rfl | hz3
      · exact le_of_lt hlt
      · exact hy z hz3
    case isFalse hge =>
      rw [List.pairwise_cons]
      refine ⟨?_, List.pairwise_cons.mpr ⟨hy, hys⟩⟩
      intro z hz
      rcases List.mem_cons.mp hz with rfl | hz3
      · omega
      · have := hy z hz3
        omega

theorem sortIds_sorted (l : List Nat) : (sortIds l).Pairwise (· ≤ ·) := by
  induction l with
  | nil => simp [sortIds]
  | cons x xs ih =>
    simp only [sortIds]
    exact insertId_sorted x _ ih

/-- C10 (confirmed): whenever the staff-user list is non-empty,
`_resolve_user_from_appointment` returns the staff user with the
smallest id — a value determined by the stored data alone, so the
availability path and the booking path select the same calendar user. -/
theorem C10_resolve_user_min_id (staff legacy : List Nat) (h : staff ≠ []) :
    ∃ m, resolveUser staff legacy = some m ∧ m ∈ staff ∧ ∀ x ∈ staff, m ≤ x := by
  have hperm := sortIds_perm staff
  have hsorted := sortIds_sorted staff
  rcases hl : sortIds staff with _ | ⟨m, tl⟩
  · exfalso
    rw [hl] at hperm
    exact h hperm.symm.eq_nil
  · refine ⟨m, ?_, ?_, ?_⟩
    · simp only [resolveUser]
      rw [if_pos h, hl]
      rfl
    · rw [hl] at hperm
      exact hperm.mem_iff.mp (List.mem_cons_self _ _)
    · intro x hx
      rw [hl] at hperm hsorted
      have hx2 : x ∈ m :: tl := hperm.mem_iff.mpr hx
      rcases List.mem_cons.mp hx2 with rfl | hx3
      · exact le_refl _
      · exact (List.pairwise_cons.mp hsorted).1 x hx3

/-- C10 witness: staff ids `[7, 2, 9]` resolve to the minimum id 2. -/
theorem C10_resolve_user_min_id_witness :
    ([7, 2, 9] : List Nat) ≠ []
    ∧ ∃ m, resolveUser [7, 2, 9] [] = some m ∧ m ∈ ([7, 2, 9] : List Nat)
        ∧ ∀ x ∈ ([7, 2, 9] : List Nat), m ≤ x :=
  ⟨by decide, C10_resolve_user_min_id [7, 2, 9] [] (by decide)⟩

end AiAppointment
